import Mathlib

/-!
Verification of the h-da site crawler and structured-content extractor
(`backend/app/core/scraper.py`).

The embedding works over `Str := List Char` (Python `str`).  The parts of the
Python standard library the scraper leans on (`urllib.parse.urlparse`,
`urlunparse`, `urljoin`) are modelled faithfully from CPython's `urllib/parse.py`
core logic (scheme/netloc/fragment/query/params splitting and RFC-style
relative-reference resolution).  The WHATWG control-character pre-stripping and
IPv6 bracket validation of `urlsplit`, which only reject or sanitize exotic
inputs, are omitted.

HTML parsing (BeautifulSoup) is external to the repository; documents are
modelled as already-parsed trees (`Node`/`Doc`), and the BeautifulSoup
operations the scraper uses (`find_all`, `find`, `.string`, `get_text(strip=True)`,
attribute lookup, the `[class*="breadcrumb"]` selector) are defined over that
tree.  Network I/O (`requests.get` + `BeautifulSoup(...)`) is modelled as an
oracle `Str → Except FetchErr Doc` passed to `scrape_section`; `datetime.utcnow`
is modelled as a clock `Nat → Nat` indexed by the number of records constructed
so far.
-/

deriving instance DecidableEq for Except

namespace Scraper

abbrev Str := List Char

/-! ### Basic string utilities (Python `str` methods used by the scraper) -/

/-- Python whitespace for `str.strip()` / `\s` (ASCII part). -/
def wsChar (c : Char) : Bool :=
  c.toNat = 32 || (9 ≤ c.toNat && c.toNat ≤ 13)

/-- Python `str.strip()` with no arguments. -/
def stripWs (s : Str) : Str :=
  ((s.dropWhile wsChar).reverse.dropWhile wsChar).reverse

/-- Python `sep.join(parts)`. -/
def joinSep (sep : Str) : List Str → Str
  | [] => []
  | [s] => s
  | s :: rest => s ++ sep ++ joinSep sep rest

/-- Python `s.split("/")` (also used with other separators). -/
def splitSep (sep : Char) : Str → List Str
  | [] => [[]]
  | c :: rest =>
    let r := splitSep sep rest
    if c = sep then [] :: r
    else
      match r with
      | s :: tail => (c :: s) :: tail
      | [] => [[c]]

/-- Boolean prefix test on `Str` (Python `str.startswith`). -/
def isPrefixStr : Str → Str → Bool
  | [], _ => true
  | _ :: _, [] => false
  | a :: as, b :: bs => a = b && isPrefixStr as bs

/-- Python `needle in hay` substring test (used for the CSS `*=` selector). -/
def containsStr (hay needle : Str) : Bool :=
  isPrefixStr needle hay ||
    match hay with
    | [] => false
    | _ :: t => containsStr t needle

/-- Python `s.rstrip("/")`. -/
def rstripSlash (s : Str) : Str :=
  (s.reverse.dropWhile (fun c => c = '/')).reverse

/-- Collapse every maximal run of whitespace to one space (the `re.sub(r"\s+", " ", value)` step). -/
def squeezeWs : Str → Str
  | [] => []
  | [c] => if wsChar c then [' '] else [c]
  | c1 :: c2 :: rest =>
    if wsChar c1 then
      if wsChar c2 then squeezeWs (c2 :: rest)
      else ' ' :: squeezeWs (c2 :: rest)
    else c1 :: squeezeWs (c2 :: rest)

/-- `normalize_whitespace` from the source: collapse whitespace runs, then strip. -/
def normalize_whitespace (value : Str) : Str :=
  stripWs (squeezeWs value)

/-! ### `urllib.parse` model -/

/-- ASCII alphabetic test (`url[0].isascii() and url[0].isalpha()`). -/
def isAsciiAlpha (c : Char) : Bool :=
  (65 ≤ c.toNat && c.toNat ≤ 90) || (97 ≤ c.toNat && c.toNat ≤ 122)

/-- ASCII digit. -/
def isAsciiDigit (c : Char) : Bool :=
  48 ≤ c.toNat && c.toNat ≤ 57

/-- Membership in CPython's `scheme_chars` (`letters + digits + "+-."`). -/
def isSchemeChar (c : Char) : Bool :=
  isAsciiAlpha c || isAsciiDigit c || c = '+' || c = '-' || c = '.'

/-- Result of `urlparse`: a 6-tuple, as in CPython's `ParseResult`. -/
structure ParseResult where
  scheme : Str
  netloc : Str
  path : Str
  params : Str
  query : Str
  fragment : Str
deriving DecidableEq, Repr

/-- Split a list at the first occurrence of `sep` (drops the separator). -/
def splitFirst (sep : Char) : Str → Option (Str × Str)
  | [] => none
  | c :: rest =>
    if c = sep then some ([], rest)
    else
      match splitFirst sep rest with
      | some (a, b) => some (c :: a, b)
      | none => none

/-- Scheme extraction of `urlsplit`: if a `:` exists at position `i > 0` and
everything before it is in `scheme_chars` with an alphabetic first character,
the scheme is `url[:i].lower()`; otherwise the default scheme is kept. -/
def splitScheme (dflt : Str) (url : Str) : Str × Str :=
  match splitFirst ':' url with
  | some (pre, post) =>
    if (pre.headD ' ' |> isAsciiAlpha) && pre.all isSchemeChar then
      (pre.map Char.toLower, post)
    else (dflt, url)
  | none => (dflt, url)

/-- Characters ending the netloc in `_splitnetloc`. -/
def isNetlocStop (c : Char) : Bool :=
  c = '/' || c = '?' || c = '#'

/-- Netloc extraction of `urlsplit` (`url[:2] == '//'` then `_splitnetloc`):
only when the remainder starts with `//`. -/
def splitNetloc (url : Str) : Str × Str :=
  if url.take 2 = ['/', '/'] then
    ((url.drop 2).takeWhile (fun c => !isNetlocStop c),
      (url.drop 2).dropWhile (fun c => !isNetlocStop c))
  else ([], url)

/-- Split a list around its last `'/'`: `l = pre ++ '/' :: post` with no `'/'` in `post`. -/
def splitLastSlash : Str → Option (Str × Str)
  | [] => none
  | c :: rest =>
    match splitLastSlash rest with
    | some (pre, post) => some (c :: pre, post)
    | none => if c = '/' then some ([], rest) else none

/-- CPython `_splitparams`: split the params off the last path segment. -/
def splitparams (url : Str) : Str × Str :=
  match splitLastSlash url with
  | some (pre, post) =>
    match splitFirst ';' post with
    | some (a, b) => (pre ++ '/' :: a, b)
    | none => (url, [])
  | none =>
    match splitFirst ';' url with
    | some (a, b) => (a, b)
    | none => (url, [])

/-- CPython `uses_params`. -/
def usesParams : List Str :=
  [[], "ftp".data, "hdl".data, "prospero".data, "http".data, "imap".data,
   "https".data, "shttp".data, "rtsp".data, "rtspu".data, "sip".data,
   "sips".data, "mms".data, "sftp".data, "tel".data]

/-- CPython `uses_relative`. -/
def usesRelative : List Str :=
  [[], "ftp".data, "http".data, "gopher".data, "nntp".data, "imap".data,
   "wais".data, "file".data, "https".data, "shttp".data, "mms".data,
   "prospero".data, "rtsp".data, "rtspu".data, "sftp".data, "svn".data,
   "svn+ssh".data, "ws".data, "wss".data]

/-- CPython `uses_netloc`. -/
def usesNetloc : List Str :=
  [[], "ftp".data, "http".data, "gopher".data, "nntp".data, "telnet".data,
   "imap".data, "wais".data, "file".data, "mms".data, "https".data,
   "shttp".data, "snews".data, "prospero".data, "rtsp".data, "rtspu".data,
   "rsync".data, "svn".data, "svn+ssh".data, "sftp".data, "nfs".data,
   "git".data, "git+ssh".data, "ws".data, "wss".data, "itms-services".data]

/-- Split at the first occurrence of `sep` when present (`url.split(sep, 1)`
guarded by `sep in url`), otherwise keep the whole string. -/
def splitOrKeep (sep : Char) (x : Str) : Str × Str :=
  match splitFirst sep x with
  | some ab => ab
  | none => (x, [])

/-- CPython `urlparse(url, scheme=dflt, allow_fragments=True)`:
`urlsplit` (scheme, `//netloc`, `#fragment` then `?query` removal) followed by
the params split on the path when the scheme uses params. -/
def urlparse (dflt : Str) (url : Str) : ParseResult :=
  let sr := splitScheme dflt url
  let scheme := sr.1
  let nr := splitNetloc sr.2
  let netloc := nr.1
  let fr := splitOrKeep '#' nr.2
  let qr := splitOrKeep '?' fr.1
  let pr :=
    if scheme ∈ usesParams ∧ ';' ∈ qr.1 then splitparams qr.1
    else (qr.1, [])
  ⟨scheme, netloc, pr.1, pr.2, qr.2, fr.2⟩

/-- CPython `urlunsplit`. -/
def urlunsplit (scheme netloc url0 query fragment : Str) : Str :=
  let url1 :=
    if netloc ≠ [] ∨ (url0 ≠ [] ∧ url0.take 2 = ['/', '/']) then
      '/' :: '/' :: netloc ++ (if url0 ≠ [] ∧ url0.head? ≠ some '/' then '/' :: url0 else url0)
    else url0
  let url2 := if scheme ≠ [] then scheme ++ ':' :: url1 else url1
  let url3 := if query ≠ [] then url2 ++ '?' :: query else url2
  if fragment ≠ [] then url3 ++ '#' :: fragment else url3

/-- CPython `urlunparse`. -/
def urlunparse (p : ParseResult) : Str :=
  urlunsplit p.scheme p.netloc
    (if p.params ≠ [] then p.path ++ ';' :: p.params else p.path) p.query p.fragment

/-- `normalize_url` from the source: default the scheme to `https`, fail
(`ValueError`, modelled as `none`) when there is no netloc, drop fragment and
query, and rebuild the URL. -/
def normalize_url (url : Str) : Option Str :=
  let parsed := urlparse [] url
  let parsed := if parsed.scheme = [] then { parsed with scheme := "https".data } else parsed
  if parsed.netloc = [] then none
  else some (urlunparse { parsed with fragment := [], query := [] })

/-- Segment resolution loop of `urljoin` (`'..'` pops, `'.'` is dropped). -/
def resolveSegs (acc : List Str) : List Str → List Str
  | [] => acc
  | s :: rest =>
    if s = "..".data then resolveSegs acc.dropLast rest
    else if s = ".".data then resolveSegs acc rest
    else resolveSegs (acc ++ [s]) rest

/-- The in-place `segments[1:-1] = filter(None, segments[1:-1])` of `urljoin`:
drop empty segments, keeping the first and last elements unconditionally. -/
def filterMidAux : List Str → List Str
  | [] => []
  | [a] => [a]
  | a :: rest => if a = [] then filterMidAux rest else a :: filterMidAux rest

/-- See `filterMidAux`; keeps the head unconditionally as well. -/
def filterMid : List Str → List Str
  | [] => []
  | [a] => [a]
  | a :: rest => a :: filterMidAux rest

/-- CPython `urljoin(base, url)`. -/
def urljoin (base url : Str) : Str :=
  if base = [] then url
  else if url = [] then base
  else
    let b := urlparse [] base
    let u := urlparse b.scheme url
    if u.scheme ≠ b.scheme ∨ u.scheme ∉ usesRelative then url
    else
      if u.scheme ∈ usesNetloc ∧ u.netloc ≠ [] then urlunparse u
      else
        let netloc := if u.scheme ∈ usesNetloc then b.netloc else u.netloc
        if u.path = [] ∧ u.params = [] then
          urlunparse ⟨u.scheme, netloc, b.path, b.params,
            (if u.query = [] then b.query else u.query), u.fragment⟩
        else
          let baseParts0 := splitSep '/' b.path
          let baseParts := if baseParts0.getLast? ≠ some [] then baseParts0.dropLast else baseParts0
          let segments :=
            if u.path.head? = some '/' then splitSep '/' u.path
            else filterMid (baseParts ++ splitSep '/' u.path)
          let resolved0 := resolveSegs [] segments
          let resolved :=
            if segments.getLast? = some ".".data ∨ segments.getLast? = some "..".data then
              resolved0 ++ [[]]
            else resolved0
          urlunparse ⟨u.scheme, netloc, joinSep "/".data resolved, u.params, u.query, u.fragment⟩

/-- `extract_path_segments` from the source: non-empty `/`-separated path segments. -/
def extract_path_segments (url : Str) : List Str :=
  (splitSep '/' (urlparse [] url).path).filter (fun s => s ≠ [])

/-! ### Parsed-markup model (the BeautifulSoup operations the scraper uses) -/

/-- A node of the parsed markup: an element with tag name, attributes and
children, or a text node (`NavigableString`). -/
inductive Node where
  | elem (tag : Str) (attrs : List (Str × Str)) (children : List Node)
  | text (s : Str)

/-- A parsed document: the top-level nodes of the soup. -/
abbrev Doc := List Node

/-- First value of an attribute (HTML attributes are unique after parsing). -/
def attrLookup (attrs : List (Str × Str)) (name : Str) : Option Str :=
  match attrs with
  | [] => none
  | (k, v) :: rest => if k = name then some v else attrLookup rest name

/-- Attribute access `tag.get(name)` on a node. -/
def nodeAttr (n : Node) (name : Str) : Option Str :=
  match n with
  | .text _ => none
  | .elem _ a _ => attrLookup a name

/-- Children of a node. -/
def nodeChildren : Node → List Node
  | .text _ => []
  | .elem _ _ cs => cs

mutual
/-- Descendant `NavigableString`s of a node, in document order (`tag.strings`). -/
def textsOf : Node → List Str
  | .text s => [s]
  | .elem _ _ cs => textsOfList cs
/-- See `textsOf`. -/
def textsOfList : List Node → List Str
  | [] => []
  | n :: rest => textsOf n ++ textsOfList rest
end

mutual
/-- Descendant elements matching a tag/attribute predicate, in document order
(`find_all`; the matched element itself comes before its matching descendants). -/
def findAllNode (p : Str → List (Str × Str) → Bool) : Node → List Node
  | .text _ => []
  | .elem t a cs => (if p t a then [Node.elem t a cs] else []) ++ findAllList p cs
/-- See `findAllNode`. -/
def findAllList (p : Str → List (Str × Str) → Bool) : List Node → List Node
  | [] => []
  | n :: rest => findAllNode p n ++ findAllList p rest
end

/-- `find_all` over the whole soup. -/
def docFindAll (p : Str → List (Str × Str) → Bool) (d : Doc) : List Node :=
  findAllList p d

/-- First match of `find` over the whole soup. -/
def docFind (p : Str → List (Str × Str) → Bool) (d : Doc) : Option Node :=
  (docFindAll p d).head?

/-- BeautifulSoup `tag.string`: the single string child, descending through
chains of single children; `None` as soon as a node has several children. -/
def nodeString : Node → Option Str
  | .text s => some s
  | .elem _ _ [c] => nodeString c
  | .elem _ _ _ => none

/-- `get_text(separator=sep, strip=True)`: stripped descendant strings,
empty ones dropped, joined with the separator. -/
def getText (sep : Str) (n : Node) : Str :=
  joinSep sep (((textsOf n).map stripWs).filter (fun s => s ≠ []))

/-- The href values of `soup.find_all("a", href=True)`, in document order. -/
def anchorsOf (d : Doc) : List Str :=
  (docFindAll (fun t a => decide (t = "a".data) && (attrLookup a "href".data).isSome) d).map
    (fun n => (nodeAttr n "href".data).getD [])

/-! ### Content extraction -/

/-- Third branch of `extract_title`: the first `h1`'s stripped text, if any. -/
def extractTitleH1 (d : Doc) : Option Str :=
  match docFind (fun t _ => decide (t = "h1".data)) d with
  | some h => some (getText [] h)
  | none => none

/-- Second and third branches of `extract_title`: the `title` element's string
when present and non-empty, else the first `h1`. -/
def extractTitleFromTitleTag (d : Doc) : Option Str :=
  match docFind (fun t _ => decide (t = "title".data)) d with
  | some t =>
    match nodeString t with
    | some s => if s ≠ [] then some (stripWs s) else extractTitleH1 d
    | none => extractTitleH1 d
  | none => extractTitleH1 d

/-- `extract_title` from the source: `og:title` meta content, else the `title`
element's string, else the first `h1` text, else `None`. -/
def extract_title (d : Doc) : Option Str :=
  match docFind (fun t a =>
      decide (t = "meta".data) && decide (attrLookup a "property".data = some "og:title".data)) d with
  | some og =>
    match nodeAttr og "content".data with
    | some v => if v ≠ [] then some (stripWs v) else extractTitleFromTitleTag d
    | none => extractTitleFromTitleTag d
  | none => extractTitleFromTitleTag d

/-- `extract_headings` from the source: every `h1`/`h2`/`h3` (the compiled
regex `^h[1-3]$`), document order, `get_text(separator=" ", strip=True)`,
empty results dropped. -/
def extract_headings (d : Doc) : List Str :=
  ((docFindAll (fun t _ =>
      decide (t = "h1".data) || decide (t = "h2".data) || decide (t = "h3".data)) d).map
    (getText [' '])).filter (fun s => s ≠ [])

/-- `extract_paragraphs` from the source: every `p` element's
whitespace-normalized text, empty results dropped. -/
def extract_paragraphs (d : Doc) : List Str :=
  ((docFindAll (fun t _ => decide (t = "p".data)) d).map
    (fun n => normalize_whitespace (getText [' '] n))).filter (fun s => s ≠ [])

/-- `extract_breadcrumbs` from the source: inside the first element whose
`class` attribute contains `"breadcrumb"` (the CSS `[class*="breadcrumb"]`
selector), the non-empty stripped texts of its `li`/`span`/`a` descendants. -/
def extract_breadcrumbs (d : Doc) : List Str :=
  match docFind (fun _ a =>
      match attrLookup a "class".data with
      | some v => containsStr v "breadcrumb".data
      | none => false) d with
  | none => []
  | some container =>
    ((findAllList (fun t _ =>
        decide (t = "li".data) || decide (t = "span".data) || decide (t = "a".data))
        (nodeChildren container)).map (getText [])).filter (fun s => s ≠ [])

/-- Values of the `metadata` mapping (a string or a list of strings). -/
inductive MetaValue where
  | text (s : Str)
  | strs (l : List Str)
deriving DecidableEq, Repr

/-- `PageContent` from the source (`retrieved_at` is the utcnow reading taken
when the record is constructed). -/
structure PageContent where
  url : Str
  title : Option Str
  headings : List Str
  paragraphs : List Str
  content : Str
  metadata : List (Str × MetaValue)
  source : Str
  tags : List Str
  retrieved_at : Nat
  error : Option Str
deriving DecidableEq, Repr

/-- `parse_page` from the source. -/
def parse_page (now : Nat) (url : Str) (d : Doc) : PageContent :=
  let headings := extract_headings d
  let breadcrumbs := extract_breadcrumbs d
  let paragraphs := extract_paragraphs d
  { url := url
    title := extract_title d
    headings := headings
    paragraphs := paragraphs
    content := joinSep "\n\n".data paragraphs
    metadata :=
      (if breadcrumbs ≠ [] then [("breadcrumbs".data, MetaValue.strs breadcrumbs)] else []) ++
        (if headings ≠ [] then
          [("heading_count".data, MetaValue.text (Nat.toDigits 10 headings.length))] else [])
    source := (urlparse [] url).netloc
    tags := extract_path_segments url
    retrieved_at := now
    error := none }

/-! ### Link discovery -/

/-- Lexicographic comparison of strings by code point (Python `str` order,
as used by `sorted`). -/
def strLe : Str → Str → Bool
  | [], _ => true
  | _ :: _, [] => false
  | a :: as, b :: bs =>
    if a.toNat < b.toNat then true
    else if b.toNat < a.toNat then false
    else strLe as bs

/-- `strLe` as a relation, for `List.insertionSort`. -/
def strLeR (a b : Str) : Prop := strLe a b = true

instance : DecidableRel strLeR := fun a b => inferInstanceAs (Decidable (strLe a b = true))

/-- Python `sorted` on a collection of strings. -/
def sortStrs (l : List Str) : List Str :=
  List.insertionSort strLeR l

/-- The anchor loop of `discover_links`.  A candidate whose normalization fails
raises `ValueError` out of the loop (modelled as `none`). -/
def discoverLoop (base_url : Str) (baseNetloc allowedPref : Str) :
    List Str → List Str → Option (List Str)
  | [], discovered => some discovered
  | href0 :: rest, discovered =>
    let href := stripWs href0
    if href = [] || isPrefixStr "mailto:".data href || isPrefixStr "tel:".data href then
      discoverLoop base_url baseNetloc allowedPref rest discovered
    else
      match normalize_url (urljoin base_url href) with
      | none => none
      | some candidate =>
        let parsed := urlparse [] candidate
        if parsed.netloc ≠ baseNetloc then
          discoverLoop base_url baseNetloc allowedPref rest discovered
        else if ¬ (isPrefixStr allowedPref parsed.path = true) then
          discoverLoop base_url baseNetloc allowedPref rest discovered
        else if candidate ∈ discovered then
          discoverLoop base_url baseNetloc allowedPref rest discovered
        else
          discoverLoop base_url baseNetloc allowedPref rest (discovered ++ [candidate])

/-- `discover_links` from the source: the base URL plus every in-scope anchor
target (same netloc, path under the trailing-slash-normalized base path),
deduplicated, sorted.  `none` models the uncaught `ValueError` that
`normalize_url` raises on a candidate with no netloc. -/
def discover_links (base_url : Str) (d : Doc) : Option (List Str) :=
  let baseParsed := urlparse [] base_url
  let allowedPref := let r := rstripSlash baseParsed.path; if r = [] then ['/'] else r
  match discoverLoop base_url baseParsed.netloc allowedPref (anchorsOf d) [base_url] with
  | none => none
  | some discovered => some (sortStrs discovered)

/-! ### Fetching and the crawl run -/

/-- Failure of `fetch_html`: a non-2xx response (`raise_for_status`) or a
transport error. -/
inductive FetchErr where
  | http (status : Nat) (body : Str)
  | network (msg : Str)
deriving DecidableEq, Repr

/-- The `str(exc)` text stored in an error record.  The exact wording comes
from the `requests` library; only the status is modelled. -/
def FetchErr.msg : FetchErr → Str
  | .http status _ => "HTTPError ".data ++ Nat.toDigits 10 status
  | .network m => m

/-- Run-level failures of `scrape_section`: `ValueError` from `normalize_url`
(seed or discovered link) or the uncaught seed fetch failure. -/
inductive ScrapeErr where
  | invalidURL
  | fetch (e : FetchErr)
deriving DecidableEq, Repr

/-- The error-isolating record built for a failed subpage fetch. -/
def error_record (link : Str) (e : FetchErr) (now : Nat) : PageContent :=
  { url := link
    title := none
    headings := []
    paragraphs := []
    content := []
    metadata := []
    source := (urlparse [] link).netloc
    tags := extract_path_segments link
    retrieved_at := now
    error := some e.msg }

/-- Body of the subpage loop of `scrape_section`: fetch one link and build its
record — an `error_record` when the fetch raises, an extracted page otherwise.
`t` is the `datetime.utcnow` reading taken when the record is constructed. -/
def scrapeRecord (fetch : Str → Except FetchErr Doc) (t : Nat) (link : Str) : PageContent :=
  match fetch link with
  | .error e => error_record link e t
  | .ok d => parse_page t link d

/-- The subpage loop of `scrape_section`: one record per discovered link.
`i` counts the records built so far (record `i` reads the clock as `clock i`). -/
def scrapeLoop (fetch : Str → Except FetchErr Doc) (clock : Nat → Nat) :
    Nat → List Str → List PageContent
  | _, [] => []
  | i, link :: rest => scrapeRecord fetch (clock i) link :: scrapeLoop fetch clock (i + 1) rest

/-- `scrape_section` from the source: normalize the seed, fetch it, discover
in-scope links, then fetch and extract each — one record per discovered URL.
`fetch` stands for `fetch_html` composed with `BeautifulSoup` parsing. -/
def scrape_section (fetch : Str → Except FetchErr Doc) (clock : Nat → Nat)
    (base_url : Str) : Except ScrapeErr (List PageContent) :=
  match normalize_url base_url with
  | none => .error .invalidURL
  | some normalized_base =>
    match fetch normalized_base with
    | .error e => .error (.fetch e)
    | .ok doc =>
      match discover_links normalized_base doc with
      | none => .error .invalidURL
      | some subpages => .ok (scrapeLoop fetch clock 0 subpages)

/-! ### Verification-side definitions -/

/-- Host of a URL string, via `urlparse` (the `urlparse(u).netloc` of the source). -/
def hostOf (u : Str) : Str := (urlparse [] u).netloc

/-- Path of a URL string, via `urlparse`. -/
def pathOf (u : Str) : Str := (urlparse [] u).path

/-- No params would be split off this path: no `';'` after the last `'/'`
(or no `';'` at all when there is no `'/'`). -/
def noParamsIn (path : Str) : Bool :=
  match splitLastSlash path with
  | some (_, post) => decide (';' ∉ post)
  | none => decide (';' ∉ path)

/-- Shape of the parse of a successfully normalized URL.  `urlparse` is a left
inverse of `urlunparse` on records of this shape. -/
structure NWF (p : ParseResult) : Prop where
  scheme_ne : p.scheme ≠ []
  scheme_head : isAsciiAlpha (p.scheme.headD ' ') = true
  scheme_chars : p.scheme.all isSchemeChar = true
  scheme_low : p.scheme.map Char.toLower = p.scheme
  netloc_ne : p.netloc ≠ []
  netloc_clean : ∀ c ∈ p.netloc, isNetlocStop c = false
  path_head : p.path = [] ∨ p.path.head? = some '/'
  path_hash : '#' ∉ p.path
  path_quest : '?' ∉ p.path
  params_slash : '/' ∉ p.params
  params_hash : '#' ∉ p.params
  params_quest : '?' ∉ p.params
  params_cond : p.scheme ∈ usesParams → noParamsIn p.path = true
  params_nil : p.scheme ∉ usesParams → p.params = []
  params_path : p.params ≠ [] → p.path ≠ []
  query_nil : p.query = []
  frag_nil : p.fragment = []

/-- Title source (1), following the spec's words: the open-graph title
meta-attribute when present and non-empty, stripped. -/
def ogTitleSpec (d : Doc) : Option Str :=
  match docFind (fun t a =>
      decide (t = "meta".data) && decide (attrLookup a "property".data = some "og:title".data)) d with
  | some og =>
    match nodeAttr og "content".data with
    | some v => if v ≠ [] then some (stripWs v) else none
    | none => none
  | none => none

/-- Title source (2), following the spec's words: the document's title element
when present with a non-empty string, stripped. -/
def docTitleSpec (d : Doc) : Option Str :=
  match docFind (fun t _ => decide (t = "title".data)) d with
  | some t =>
    match nodeString t with
    | some s => if s ≠ [] then some (stripWs s) else none
    | none => none
  | none => none

/-- Title source (3), following the spec's words: the first level-1 heading's
text. -/
def h1TitleSpec (d : Doc) : Option Str :=
  match docFind (fun t _ => decide (t = "h1".data)) d with
  | some h => some (getText [] h)
  | none => none

/-- Does the oracle fail on this URL? -/
def fetchFails (fetch : Str → Except FetchErr Doc) (l : Str) : Bool :=
  match fetch l with
  | .error _ => true
  | .ok _ => false

/-- Zero out the `retrieved_at` timestamp of a record. -/
def eraseTime (r : PageContent) : PageContent :=
  { r with retrieved_at := 0 }

/-- Zero out every timestamp in a run result. -/
def eraseTimes : Except ScrapeErr (List PageContent) → Except ScrapeErr (List PageContent)
  | .error e => .error e
  | .ok rs => .ok (rs.map eraseTime)

/-! ### Concrete documents and oracles for scenarios and counterexamples -/

/-- The seed markup of the discovery scenario: links to `/programs/cs`,
`/programs/ee`, `https://other.edu/x` and `mailto:a@b.c`. -/
def programsMarkup : Doc :=
  [ .elem "html".data []
      [ .elem "body".data []
          [ .elem "a".data [("href".data, "/programs/cs".data)] [ .text "CS".data ]
          , .elem "a".data [("href".data, "/programs/ee".data)] [ .text "EE".data ]
          , .elem "a".data [("href".data, "https://other.edu/x".data)] [ .text "other".data ]
          , .elem "a".data [("href".data, "mailto:a@b.c".data)] [ .text "mail".data ] ] ] ]

/-- Markup whose only title source is a level-1 heading. -/
def h1OnlyMarkup : Doc :=
  [ .elem "html".data []
      [ .elem "body".data [] [ .elem "h1".data [] [ .text "Computer Science".data ] ] ] ]

/-- Markup with two links that differ only by a trailing slash. -/
def slashMarkup : Doc :=
  [ .elem "a".data [("href".data, "/a/x".data)] []
  , .elem "a".data [("href".data, "/a/x/".data)] [] ]

/-- Markup with a single `javascript:` link. -/
def jsMarkup : Doc :=
  [ .elem "a".data [("href".data, "javascript:void(0)".data)] [] ]

/-- A page body with one heading and one paragraph. -/
def bodyMarkup : Doc :=
  [ .elem "h1".data [] [ .text "Page".data ]
  , .elem "p".data [] [ .text "Hello world".data ] ]

/-- Oracle that serves `slashMarkup` everywhere except `https://h/a/x`,
which times out. -/
def fetchOneFail : Str → Except FetchErr Doc := fun u =>
  if u = "https://h/a/x".data then .error (.network "timed out".data) else .ok slashMarkup

/-- Oracle that always serves `bodyMarkup`. -/
def fetchAllOk : Str → Except FetchErr Doc := fun _ => .ok bodyMarkup

/-- Oracle whose seed page contains only a `javascript:` link. -/
def fetchJsPage : Str → Except FetchErr Doc := fun _ => .ok jsMarkup

/-- Oracle that returns HTTP 404 for everything. -/
def fetch404 : Str → Except FetchErr Doc := fun _ => .error (.http 404 "not found".data)

/-! ## Lemmas about the crawl loop -/

theorem scrapeLoop_length (fetch : Str → Except FetchErr Doc) (clock : Nat → Nat) :
    ∀ (i : Nat) (links : List Str), (scrapeLoop fetch clock i links).length = links.length
  | _, [] => rfl
  | i, _ :: rest => by
    simp only [scrapeLoop, List.length_cons, scrapeLoop_length fetch clock (i + 1) rest]

theorem scrapeRecord_error_isSome (fetch : Str → Except FetchErr Doc) (t : Nat) (link : Str) :
    (scrapeRecord fetch t link).error.isSome = fetchFails fetch link := by
  unfold scrapeRecord fetchFails
  cases fetch link <;> simp [error_record, parse_page]

theorem scrapeLoop_countP (fetch : Str → Except FetchErr Doc) (clock : Nat → Nat) :
    ∀ (i : Nat) (links : List Str),
      (scrapeLoop fetch clock i links).countP (fun r => r.error.isSome) =
        links.countP (fetchFails fetch)
  | _, [] => rfl
  | i, link :: rest => by
    simp only [scrapeLoop, List.countP_cons, scrapeLoop_countP fetch clock (i + 1) rest,
      scrapeRecord_error_isSome]

theorem scrapeLoop_get (fetch : Str → Except FetchErr Doc) (clock : Nat → Nat) :
    ∀ (i : Nat) (links : List Str) (j : Nat) (hj : j < links.length),
      (scrapeLoop fetch clock i links).get
          ⟨j, by rw [scrapeLoop_length]; exact hj⟩ =
        scrapeRecord fetch (clock (i + j)) (links.get ⟨j, hj⟩)
  | i, link :: rest, 0, _ => by simp [scrapeLoop]
  | i, link :: rest, j + 1, hj => by
    have ih := scrapeLoop_get fetch clock (i + 1) rest j (Nat.lt_of_succ_lt_succ hj)
    simpa [scrapeLoop, Nat.add_assoc, Nat.add_comm 1 j] using ih

theorem scrapeLoop_mem_shape (fetch : Str → Except FetchErr Doc) (clock : Nat → Nat) :
    ∀ (i : Nat) (links : List Str) (r : PageContent), r ∈ scrapeLoop fetch clock i links →
      ∃ t l, r = scrapeRecord fetch t l
  | i, link :: rest, r, hr => by
    rcases List.mem_cons.mp hr with h | h
    · exact ⟨clock i, link, h⟩
    · exact scrapeLoop_mem_shape fetch clock (i + 1) rest r h

theorem eraseTime_scrapeRecord (fetch : Str → Except FetchErr Doc) (t t' : Nat) (link : Str) :
    eraseTime (scrapeRecord fetch t link) = eraseTime (scrapeRecord fetch t' link) := by
  unfold scrapeRecord
  cases fetch link <;> simp [eraseTime, error_record, parse_page]

theorem scrapeLoop_eraseTime (fetch : Str → Except FetchErr Doc) :
    ∀ (c c' : Nat → Nat) (i i' : Nat) (links : List Str),
      (scrapeLoop fetch c i links).map eraseTime = (scrapeLoop fetch c' i' links).map eraseTime
  | _, _, _, _, [] => rfl
  | c, c', i, i', link :: rest => by
    simp only [scrapeLoop, List.map_cons, scrapeLoop_eraseTime fetch c c' (i + 1) (i' + 1) rest,
      eraseTime_scrapeRecord fetch (c i) (c' i') link]

/-- Inversion of a successful run: the seed normalized, its fetch succeeded,
discovery succeeded, and the records are the subpage loop over the links. -/
theorem scrape_section_ok_inv (fetch : Str → Except FetchErr Doc) (clock : Nat → Nat)
    (base : Str) (results : List PageContent)
    (hs : scrape_section fetch clock base = .ok results) :
    ∃ nb doc links, normalize_url base = some nb ∧ fetch nb = .ok doc ∧
      discover_links nb doc = some links ∧ results = scrapeLoop fetch clock 0 links := by
  unfold scrape_section at hs
  split at hs
  · exact absurd hs (by simp)
  next nb hn =>
    split at hs
    · exact absurd hs (by simp)
    next doc hf =>
      split at hs
      · exact absurd hs (by simp)
      next links hd =>
        exact ⟨nb, doc, links, hn, hf, hd, by injection hs with hs; rw [hs]⟩

/-! ## Claim C4: a seed fetch failure aborts the run -/

/-- C4: if fetching the seed page fails (for instance with HTTP status 404),
the whole run fails: `scrape_section` surfaces the fetch error, with its
status, and produces no records. -/
theorem seed_fetch_failure_aborts_run (fetch : Str → Except FetchErr Doc)
    (clock : Nat → Nat) (base nb : Str) (e : FetchErr)
    (hn : normalize_url base = some nb) (hf : fetch nb = .error e) :
    scrape_section fetch clock base = .error (.fetch e) := by
  simp only [scrape_section, hn, hf]

/-- Witness for C4 at a 404 seed. -/
theorem seed_fetch_failure_aborts_run_witness :
    normalize_url "https://h/a".data = some "https://h/a".data ∧
      fetch404 "https://h/a".data = .error (.http 404 "not found".data) ∧
      scrape_section fetch404 (fun i => i) "https://h/a".data =
        .error (.fetch (.http 404 "not found".data)) :=
  ⟨by decide, rfl,
    seed_fetch_failure_aborts_run fetch404 (fun i => i) "https://h/a".data "https://h/a".data
      (.http 404 "not found".data) (by decide) rfl⟩

/-! ## Claim C8: content is derived from paragraphs -/

/-- C8: every record a run produces that carries no error has `content` equal
to its `paragraphs` joined with a blank-line separator. -/
theorem content_joins_paragraphs (fetch : Str → Except FetchErr Doc) (clock : Nat → Nat)
    (base : Str) (results : List PageContent) (r : PageContent)
    (hs : scrape_section fetch clock base = .ok results) (hr : r ∈ results)
    (he : r.error = none) : r.content = joinSep "\n\n".data r.paragraphs := by
  obtain ⟨nb, doc, links, _, _, _, hres⟩ := scrape_section_ok_inv fetch clock base results hs
  obtain ⟨t, l, hrec⟩ := scrapeLoop_mem_shape fetch clock 0 links r (hres ▸ hr)
  rcases hf : fetch l with e | d
  · rw [hrec] at he
    unfold scrapeRecord at he
    rw [hf] at he
    simp [error_record] at he
  · rw [hrec]
    unfold scrapeRecord
    rw [hf]
    simp [parse_page]

/-- Witness for C8 on a concrete run. -/
theorem content_joins_paragraphs_witness :
    ∃ results r, scrape_section fetchAllOk (fun i => i) "https://h/a".data = .ok results ∧
      r ∈ results ∧ r.error = none ∧ r.content = joinSep "\n\n".data r.paragraphs := by
  have h := content_joins_paragraphs fetchAllOk (fun i => i) "https://h/a".data
    (scrapeLoop fetchAllOk (fun i => i) 0 ["https://h/a".data])
    (parse_page 0 "https://h/a".data bodyMarkup) (by decide) (by decide) (by decide)
  exact ⟨scrapeLoop fetchAllOk (fun i => i) 0 ["https://h/a".data],
    parse_page 0 "https://h/a".data bodyMarkup, by decide, by decide, by decide, h⟩

/-! ## Claim C1: a single subpage failure is isolated -/

/-- C1: when the seed fetch and discovery succeed and exactly one of the N
discovered URLs fails to fetch, the run still returns N records: the failing
URL's record has a non-null error, no title, empty headings, paragraphs and
content, the URL's non-empty path segments as tags and its host as source,
while every other record is the fully extracted page. -/
theorem single_subpage_failure_is_isolated (fetch : Str → Except FetchErr Doc)
    (clock : Nat → Nat) (base nb : Str) (doc : Doc) (links : List Str)
    (hn : normalize_url base = some nb) (hf : fetch nb = .ok doc)
    (hd : discover_links nb doc = some links)
    (hone : links.countP (fetchFails fetch) = 1) :
    ∃ results, scrape_section fetch clock base = .ok results ∧
      results.length = links.length ∧
      results.countP (fun r => r.error.isSome) = 1 ∧
      (∀ (j : Nat) (hj : j < links.length) (hj2 : j < results.length) (e : FetchErr),
        fetch (links.get ⟨j, hj⟩) = .error e →
          (results.get ⟨j, hj2⟩).error ≠ none ∧
          (results.get ⟨j, hj2⟩).title = none ∧
          (results.get ⟨j, hj2⟩).headings = [] ∧
          (results.get ⟨j, hj2⟩).paragraphs = [] ∧
          (results.get ⟨j, hj2⟩).content = [] ∧
          (results.get ⟨j, hj2⟩).tags = extract_path_segments (links.get ⟨j, hj⟩) ∧
          (results.get ⟨j, hj2⟩).source = (urlparse [] (links.get ⟨j, hj⟩)).netloc) ∧
      (∀ (j : Nat) (hj : j < links.length) (hj2 : j < results.length) (d : Doc),
        fetch (links.get ⟨j, hj⟩) = .ok d →
          results.get ⟨j, hj2⟩ = parse_page (clock j) (links.get ⟨j, hj⟩) d) := by
  have hs : scrape_section fetch clock base = .ok (scrapeLoop fetch clock 0 links) := by
    simp only [scrape_section, hn, hf, hd]
  refine ⟨scrapeLoop fetch clock 0 links, hs, scrapeLoop_length fetch clock 0 links,
    by rw [scrapeLoop_countP]; exact hone, ?_, ?_⟩
  · intro j hj hj2 e he
    have hget : (scrapeLoop fetch clock 0 links).get ⟨j, hj2⟩ =
        scrapeRecord fetch (clock (0 + j)) (links.get ⟨j, hj⟩) :=
      scrapeLoop_get fetch clock 0 links j hj
    rw [hget]
    unfold scrapeRecord
    rw [he]
    simp [error_record]
  · intro j hj hj2 d hok
    have hget : (scrapeLoop fetch clock 0 links).get ⟨j, hj2⟩ =
        scrapeRecord fetch (clock (0 + j)) (links.get ⟨j, hj⟩) :=
      scrapeLoop_get fetch clock 0 links j hj
    rw [hget]
    unfold scrapeRecord
    rw [hok]
    simp

/-- Witness for C1: three discovered links, the middle one times out. -/
theorem single_subpage_failure_is_isolated_witness :
    normalize_url "https://h/a".data = some "https://h/a".data ∧
      fetchOneFail "https://h/a".data = .ok slashMarkup ∧
      discover_links "https://h/a".data slashMarkup =
        some ["https://h/a".data, "https://h/a/x".data, "https://h/a/x/".data] ∧
      (["https://h/a".data, "https://h/a/x".data, "https://h/a/x/".data].countP
        (fetchFails fetchOneFail)) = 1 ∧
      (∃ results, scrape_section fetchOneFail (fun i => i) "https://h/a".data = .ok results ∧
        results.length = 3 ∧ results.countP (fun r => r.error.isSome) = 1) := by
  have h := single_subpage_failure_is_isolated fetchOneFail (fun i => i) "https://h/a".data
    "https://h/a".data slashMarkup
    ["https://h/a".data, "https://h/a/x".data, "https://h/a/x/".data]
    (by decide) rfl (by decide) (by decide)
  obtain ⟨results, h1, h2, h3, -, -⟩ := h
  exact ⟨by decide, rfl, by decide, by decide, results, h1, by rw [h2]; rfl, h3⟩

/-! ## Claim C10: determinism across runs (corrected: `retrieved_at` varies) -/

/-- Counterexample to C10 as stated: the same seed crawled against
byte-identical markup (the very same oracle) at two different clock readings
yields record sequences that are not identical field for field — the
`retrieved_at` field differs. -/
theorem runs_differ_in_retrieved_at :
    scrape_section fetchAllOk (fun _ => 0) "https://h/a".data ≠
      scrape_section fetchAllOk (fun _ => 1) "https://h/a".data := by decide

/-- C10 amended: two runs against byte-identical markup (the same fetch
oracle) produce identical record sequences in identical order once the
`retrieved_at` timestamps are erased; every other field agrees regardless of
the clock. -/
theorem runs_agree_except_retrieved_at (fetch : Str → Except FetchErr Doc)
    (c c' : Nat → Nat) (base : Str) :
    eraseTimes (scrape_section fetch c base) = eraseTimes (scrape_section fetch c' base) := by
  rcases hn : normalize_url base with _ | nb
  · simp only [scrape_section, hn]
  · rcases hfe : fetch nb with e | doc
    · simp only [scrape_section, hn, hfe]
    · rcases hd : discover_links nb doc with _ | links
      · simp only [scrape_section, hn, hfe, hd]
      · simp only [scrape_section, hn, hfe, hd, eraseTimes]
        rw [scrapeLoop_eraseTime fetch c c' 0 0 links]

/-! ## Claim C3: a discovered link with no host (corrected: the error is not
silently swallowed — it aborts the run) -/

/-- Counterexample to C3 as stated: a crawl whose seed page contains a single
`javascript:` link does not silently discard it and continue; `discover_links`
fails and the run aborts with the normalization error. -/
theorem javascript_link_aborts_run :
    discover_links "https://h/a".data jsMarkup = none ∧
      scrape_section fetchJsPage (fun i => i) "https://h/a".data =
        .error ScrapeErr.invalidURL := by
  constructor
  · decide
  · have hd : discover_links "https://h/a".data jsMarkup = none := by decide
    simp only [scrape_section]
    rw [show normalize_url "https://h/a".data = some "https://h/a".data from by decide]
    show (match discover_links "https://h/a".data jsMarkup with
      | none => Except.error ScrapeErr.invalidURL
      | some subpages => Except.ok (scrapeLoop fetchJsPage (fun i => i) 0 subpages)) = _
    rw [hd]

theorem discoverLoop_none_of_bad_anchor (base bn ap a : Str)
    (h1 : stripWs a ≠ []) (h2 : isPrefixStr "mailto:".data (stripWs a) = false)
    (h3 : isPrefixStr "tel:".data (stripWs a) = false)
    (h4 : normalize_url (urljoin base (stripWs a)) = none) :
    ∀ (anchors : List Str) (discovered : List Str), a ∈ anchors →
      discoverLoop base bn ap anchors discovered = none := by
  intro anchors
  induction anchors with
  | nil => intro _ ha; cases ha
  | cons b tl ih =>
    intro discovered ha
    rcases List.mem_cons.mp ha with rfl | hmem
    · simp only [discoverLoop]
      rw [if_neg (by simp [h1, h2, h3]), h4]
    · simp only [discoverLoop]
      split
      · exact ih discovered hmem
      · rcases hnc : normalize_url (urljoin base (stripWs b)) with _ | candidate
        · simp only [hnc]
        · simp only [hnc]
          split
          · exact ih discovered hmem
          · split
            · exact ih discovered hmem
            · split
              · exact ih discovered hmem
              · exact ih _ hmem

/-- C3 amended: a discovered link that resolves to a candidate with no host
(for example a `javascript:` href) is not silently discarded: `normalize_url`'s
error propagates out of `discover_links` uncaught, so the run aborts with
`InvalidURL`, exactly as for a seed with no host. -/
theorem bad_anchor_aborts_discovery (base : Str) (d : Doc) (a : Str)
    (ha : a ∈ anchorsOf d)
    (h1 : stripWs a ≠ []) (h2 : isPrefixStr "mailto:".data (stripWs a) = false)
    (h3 : isPrefixStr "tel:".data (stripWs a) = false)
    (h4 : normalize_url (urljoin base (stripWs a)) = none) :
    discover_links base d = none := by
  simp only [discover_links]
  rw [discoverLoop_none_of_bad_anchor base _ _ a h1 h2 h3 h4 (anchorsOf d) _ ha]

/-- Witness for the amended C3, at the `javascript:` anchor. -/
theorem bad_anchor_aborts_discovery_witness :
    "javascript:void(0)".data ∈ anchorsOf jsMarkup ∧
      discover_links "https://h/a".data jsMarkup = none :=
  ⟨by decide,
    bad_anchor_aborts_discovery "https://h/a".data jsMarkup "javascript:void(0)".data
      (by decide) (by decide) (by decide) (by decide) (by decide)⟩

/-! ## Lemmas about prefixes and the discovery loop -/

theorem isPrefixStr_append (a t : Str) : isPrefixStr a (a ++ t) = true := by
  induction a with
  | nil => rfl
  | cons c cs ih => simp [isPrefixStr, ih]

theorem rstripSlash_append_eq (s : Str) :
    rstripSlash s ++ (s.reverse.takeWhile (fun c => c = '/')).reverse = s := by
  unfold rstripSlash
  rw [← List.reverse_append, List.takeWhile_append_dropWhile, List.reverse_reverse]

theorem isPrefixStr_rstripSlash (s : Str) : isPrefixStr (rstripSlash s) s = true := by
  have h := isPrefixStr_append (rstripSlash s) ((s.reverse.takeWhile (fun c => c = '/')).reverse)
  rw [rstripSlash_append_eq] at h
  exact h

theorem discoverLoop_inv (base bn ap : Str) (P : Str → Prop)
    (hP : ∀ c, (urlparse [] c).netloc = bn → isPrefixStr ap (urlparse [] c).path = true → P c) :
    ∀ (anchors discovered res : List Str),
      discoverLoop base bn ap anchors discovered = some res →
      (∀ x ∈ discovered, P x) → ∀ x ∈ res, P x := by
  intro anchors
  induction anchors with
  | nil =>
    intro discovered res h hdisc
    injection h with h
    exact h ▸ hdisc
  | cons b tl ih =>
    intro discovered res h hdisc
    simp only [discoverLoop] at h
    split at h
    · exact ih discovered res h hdisc
    rcases hnc : normalize_url (urljoin base (stripWs b)) with _ | candidate <;>
      simp only [hnc] at h
    · exact Option.noConfusion h
    by_cases hneq : (urlparse [] candidate).netloc ≠ bn
    · rw [if_pos hneq] at h
      exact ih _ _ h hdisc
    · rw [if_neg hneq] at h
      by_cases hpre : ¬ (isPrefixStr ap (urlparse [] candidate).path = true)
      · rw [if_pos hpre] at h
        exact ih _ _ h hdisc
      · rw [if_neg hpre] at h
        by_cases hmem : candidate ∈ discovered
        · rw [if_pos hmem] at h
          exact ih _ _ h hdisc
        · rw [if_neg hmem] at h
          refine ih _ _ h ?_
          intro x hx
          rcases List.mem_append.mp hx with hx | hx
          · exact hdisc x hx
          · cases List.mem_singleton.mp hx
            exact hP candidate (not_not.mp hneq) (not_not.mp hpre)

theorem discoverLoop_extends (base bn ap : Str) :
    ∀ (anchors discovered res : List Str),
      discoverLoop base bn ap anchors discovered = some res →
      ∀ x ∈ discovered, x ∈ res := by
  intro anchors
  induction anchors with
  | nil =>
    intro discovered res h
    injection h with h
    exact h ▸ fun x hx => hx
  | cons b tl ih =>
    intro discovered res h
    simp only [discoverLoop] at h
    split at h
    · exact ih discovered res h
    rcases hnc : normalize_url (urljoin base (stripWs b)) with _ | candidate <;>
      simp only [hnc] at h
    · exact Option.noConfusion h
    split at h
    · exact ih _ _ h
    · split at h
      · exact ih _ _ h
      · split at h
        · exact ih _ _ h
        · intro x hx
          exact ih _ _ h x (List.mem_append.mpr (Or.inl hx))

theorem discoverLoop_nodup (base bn ap : Str) :
    ∀ (anchors discovered res : List Str),
      discoverLoop base bn ap anchors discovered = some res →
      discovered.Nodup → res.Nodup := by
  intro anchors
  induction anchors with
  | nil =>
    intro discovered res h hd
    injection h with h
    exact h ▸ hd
  | cons b tl ih =>
    intro discovered res h hd
    simp only [discoverLoop] at h
    split at h
    · exact ih discovered res h hd
    rcases hnc : normalize_url (urljoin base (stripWs b)) with _ | candidate <;>
      simp only [hnc] at h
    · exact Option.noConfusion h
    split at h
    · exact ih _ _ h hd
    · split at h
      · exact ih _ _ h hd
      · by_cases hmem : candidate ∈ discovered
        · rw [if_pos hmem] at h
          exact ih _ _ h hd
        · rw [if_neg hmem] at h
          refine ih _ _ h ?_
          simp [List.nodup_append, hd, hmem]

/-! ## Lexicographic order lemmas -/

theorem strLe_total : ∀ a b : Str, strLe a b = true ∨ strLe b a = true
  | [], _ => Or.inl rfl
  | _ :: _, [] => Or.inr rfl
  | a :: as, b :: bs => by
    unfold strLe
    rcases Nat.lt_trichotomy a.toNat b.toNat with h | h | h
    · exact Or.inl (by rw [if_pos h])
    · rw [if_neg (by omega), if_neg (by omega), if_neg (by omega), if_neg (by omega)]
      exact strLe_total as bs
    · exact Or.inr (by rw [if_pos h])

theorem strLe_trans : ∀ a b c : Str, strLe a b = true → strLe b c = true → strLe a c = true
  | [], _, _, _, _ => rfl
  | _ :: _, [], _, hab, _ => by simp [strLe] at hab
  | _ :: _, _ :: _, [], _, hbc => by simp [strLe] at hbc
  | a :: as, b :: bs, c :: cs, hab, hbc => by
    unfold strLe at hab hbc ⊢
    rcases Nat.lt_trichotomy a.toNat b.toNat with h1 | h1 | h1
    · rcases Nat.lt_trichotomy b.toNat c.toNat with h2 | h2 | h2
      · rw [if_pos (by omega)]
      · rw [if_pos (by omega)]
      · rw [if_neg (by omega), if_pos h2] at hbc
        simp at hbc
    · rcases Nat.lt_trichotomy b.toNat c.toNat with h2 | h2 | h2
      · rw [if_pos (by omega)]
      · rw [if_neg (by omega), if_neg (by omega)]
        rw [if_neg (by omega), if_neg (by omega)] at hab
        rw [if_neg (by omega), if_neg (by omega)] at hbc
        exact strLe_trans as bs cs hab hbc
      · rw [if_neg (by omega), if_pos h2] at hbc
        simp at hbc
    · rw [if_neg (by omega), if_pos h1] at hab
      simp at hab

instance : IsTotal Str strLeR := ⟨strLe_total⟩

instance : IsTrans Str strLeR := ⟨strLe_trans⟩

/-- Inversion of a successful discovery: the result is the sorted accumulator
of the loop started from the seed singleton. -/
theorem discover_links_some_inv (base : Str) (d : Doc) (links : List Str)
    (h : discover_links base d = some links) :
    ∃ discovered,
      discoverLoop base (urlparse [] base).netloc
        (if rstripSlash (urlparse [] base).path = [] then ['/']
          else rstripSlash (urlparse [] base).path) (anchorsOf d) [base] = some discovered ∧
      links = sortStrs discovered := by
  simp only [discover_links] at h
  rcases hloop : discoverLoop base (urlparse [] base).netloc
      (if rstripSlash (urlparse [] base).path = [] then ['/']
        else rstripSlash (urlparse [] base).path) (anchorsOf d) [base] with _ | discovered <;>
    simp only [hloop] at h
  · exact Option.noConfusion h
  · injection h with h
    exact ⟨discovered, rfl, h.symm⟩

/-! ## Claim C2: discovered URLs stay in scope -/

/-- C2: every URL returned by `discover_links` for a seed has the seed's host,
and the seed's trailing-slash-normalized path is a prefix of its path; anchors
resolving to another host or outside the seed's path subtree never appear. -/
theorem discovered_urls_in_scope (base : Str) (d : Doc) (links : List Str)
    (h : discover_links base d = some links) :
    ∀ u ∈ links, hostOf u = hostOf base ∧
      isPrefixStr (rstripSlash (pathOf base)) (pathOf u) = true := by
  obtain ⟨discovered, hloop, hlinks⟩ := discover_links_some_inv base d links h
  intro u hu
  have hmem : u ∈ discovered := by
    have hperm := List.perm_insertionSort strLeR discovered
    have hu2 : u ∈ sortStrs discovered := hlinks ▸ hu
    exact hperm.mem_iff.mp hu2
  refine discoverLoop_inv base (urlparse [] base).netloc _
    (fun u => hostOf u = hostOf base ∧
      isPrefixStr (rstripSlash (pathOf base)) (pathOf u) = true) ?_ (anchorsOf d) [base]
    discovered hloop ?_ u hmem
  · intro c h1 h2
    refine ⟨h1, ?_⟩
    by_cases hr : rstripSlash (urlparse [] base).path = []
    · show isPrefixStr (rstripSlash (urlparse [] base).path) (urlparse [] c).path = true
      rw [hr]
      rfl
    · rw [if_neg hr] at h2
      exact h2
  · intro x hx
    cases List.mem_singleton.mp hx
    exact ⟨rfl, isPrefixStr_rstripSlash (pathOf base)⟩

/-- Witness for C2 on the discovery scenario. -/
theorem discovered_urls_in_scope_witness :
    discover_links "https://example.edu/programs".data programsMarkup =
      some ["https://example.edu/programs".data, "https://example.edu/programs/cs".data,
        "https://example.edu/programs/ee".data] ∧
    ∀ u ∈ ["https://example.edu/programs".data, "https://example.edu/programs/cs".data,
        "https://example.edu/programs/ee".data],
      hostOf u = hostOf "https://example.edu/programs".data ∧
        isPrefixStr (rstripSlash (pathOf "https://example.edu/programs".data)) (pathOf u) = true :=
  ⟨by decide,
    discovered_urls_in_scope "https://example.edu/programs".data programsMarkup _ (by decide)⟩

/-! ## Claim C7: discovery output is a sorted, duplicate-free list containing the seed -/

/-- C7: `discover_links` always returns a duplicate-free list, sorted
lexicographically by code point, containing the seed URL; on the scenario
markup the result is exactly the `programs`, `programs/cs`, `programs/ee`
set, the other-host and mailto links excluded. -/
theorem discover_links_sorted_dedup_contains_seed :
    (∀ (base : Str) (d : Doc) (links : List Str), discover_links base d = some links →
      base ∈ links ∧ links.Nodup ∧ links.Sorted strLeR) ∧
      discover_links "https://example.edu/programs".data programsMarkup =
        some ["https://example.edu/programs".data, "https://example.edu/programs/cs".data,
          "https://example.edu/programs/ee".data] := by
  constructor
  · intro base d links h
    obtain ⟨discovered, hloop, hlinks⟩ := discover_links_some_inv base d links h
    have hperm := List.perm_insertionSort strLeR discovered
    refine ⟨?_, ?_, ?_⟩
    · rw [hlinks]
      exact hperm.mem_iff.mpr
        (discoverLoop_extends base _ _ (anchorsOf d) [base] discovered hloop base
          (List.mem_singleton.mpr rfl))
    · rw [hlinks]
      exact hperm.nodup_iff.mpr
        (discoverLoop_nodup base _ _ (anchorsOf d) [base] discovered hloop
          (List.nodup_singleton base))
    · rw [hlinks]
      exact List.sorted_insertionSort strLeR discovered
  · decide

/-! ## Claim C9: title derivation priority -/

theorem extractTitleH1_eq_spec (d : Doc) : extractTitleH1 d = h1TitleSpec d := rfl

theorem extractTitleFromTitleTag_eq_spec (d : Doc) :
    extractTitleFromTitleTag d = (docTitleSpec d).orElse (fun _ => h1TitleSpec d) := by
  unfold extractTitleFromTitleTag docTitleSpec
  rcases ht : docFind (fun t _ => decide (t = "title".data)) d with _ | t <;> simp only [ht]
  · rw [extractTitleH1_eq_spec]
    rfl
  · rcases hs : nodeString t with _ | s <;> simp only [hs]
    · rw [extractTitleH1_eq_spec]
      rfl
    · by_cases hne : s ≠ []
      · rw [if_pos hne, if_pos hne]
        rfl
      · rw [if_neg hne, if_neg hne, extractTitleH1_eq_spec]
        rfl

/-- C9: the extractor derives the title first-match-wins — the og:title
meta-attribute when present and non-empty, else the document title element when
present and non-empty, else the first level-1 heading's text, else absent; and
markup whose only title source is an h1 "Computer Science" yields exactly that
title. -/
theorem title_first_match_wins :
    (∀ d : Doc, extract_title d =
      ((ogTitleSpec d).orElse fun _ => (docTitleSpec d).orElse fun _ => h1TitleSpec d)) ∧
      extract_title h1OnlyMarkup = some "Computer Science".data := by
  constructor
  · intro d
    unfold extract_title ogTitleSpec
    rcases hog : docFind (fun t a =>
        decide (t = "meta".data) &&
          decide (attrLookup a "property".data = some "og:title".data)) d with _ | og <;>
      simp only [hog]
    · rw [extractTitleFromTitleTag_eq_spec]
      rfl
    · rcases hc : nodeAttr og "content".data with _ | v <;> simp only [hc]
      · rw [extractTitleFromTitleTag_eq_spec]
        rfl
      · by_cases hv : v ≠ []
        · rw [if_pos hv, if_pos hv]
          rfl
        · rw [if_neg hv, if_neg hv, extractTitleFromTitleTag_eq_spec]
          rfl
  · decide

/-- Witness for C7's general part at the scenario seed. -/
theorem discover_links_sorted_dedup_contains_seed_witness :
    "https://example.edu/programs".data ∈
        ["https://example.edu/programs".data, "https://example.edu/programs/cs".data,
          "https://example.edu/programs/ee".data] ∧
      (["https://example.edu/programs".data, "https://example.edu/programs/cs".data,
        "https://example.edu/programs/ee".data] : List Str).Nodup ∧
      (["https://example.edu/programs".data, "https://example.edu/programs/cs".data,
        "https://example.edu/programs/ee".data] : List Str).Sorted strLeR :=
  discover_links_sorted_dedup_contains_seed.1 "https://example.edu/programs".data
    programsMarkup _ (by decide)

/-! ## Lemmas about the splitting primitives -/

theorem splitFirst_eq_some (sep : Char) :
    ∀ (l a b : Str), splitFirst sep l = some (a, b) → l = a ++ sep :: b ∧ sep ∉ a
  | [], a, b, h => Option.noConfusion h
  | c :: rest, a, b, h => by
    unfold splitFirst at h
    by_cases hc : c = sep
    · rw [if_pos hc] at h
      injection h with h
      injection h with h1 h2
      subst h1
      subst h2
      simp [hc]
    · rw [if_neg hc] at h
      rcases hr : splitFirst sep rest with _ | ⟨a2, b2⟩ <;> rw [hr] at h
      · exact Option.noConfusion h
      · injection h with h
        injection h with h1 h2
        subst h2
        obtain ⟨hrest, hna⟩ := splitFirst_eq_some sep rest a2 b2 hr
        subst h1
        constructor
        · rw [hrest]
          rfl
        · intro hmem
          rcases List.mem_cons.mp hmem with hmem | hmem
          · exact hc hmem.symm
          · exact hna hmem

theorem splitFirst_eq_none (sep : Char) :
    ∀ (l : Str), splitFirst sep l = none → sep ∉ l
  | [], _ => by simp
  | c :: rest, h => by
    unfold splitFirst at h
    by_cases hc : c = sep
    · rw [if_pos hc] at h
      exact Option.noConfusion h
    · rw [if_neg hc] at h
      rcases hr : splitFirst sep rest with _ | ab <;> rw [hr] at h
      · intro hmem
        rcases List.mem_cons.mp hmem with hmem | hmem
        · exact hc hmem.symm
        · exact splitFirst_eq_none sep rest hr hmem
      · exact Option.noConfusion h

theorem splitFirst_append (sep : Char) :
    ∀ (a b : Str), sep ∉ a → splitFirst sep (a ++ sep :: b) = some (a, b)
  | [], b, _ => by simp [splitFirst]
  | c :: rest, b, h => by
    have hc : ¬ c = sep := fun hc => h (hc ▸ List.mem_cons_self c rest)
    have hrest : sep ∉ rest := fun hm => h (List.mem_cons_of_mem c hm)
    have ih := splitFirst_append sep rest b hrest
    show splitFirst sep (c :: (rest ++ sep :: b)) = some (c :: rest, b)
    unfold splitFirst
    rw [if_neg hc, ih]

theorem splitFirst_of_not_mem (sep : Char) :
    ∀ (l : Str), sep ∉ l → splitFirst sep l = none
  | [], _ => rfl
  | c :: rest, h => by
    have hc : ¬ c = sep := fun hc => h (hc ▸ List.mem_cons_self c rest)
    have hrest : sep ∉ rest := fun hm => h (List.mem_cons_of_mem c hm)
    simp only [splitFirst, if_neg hc, splitFirst_of_not_mem sep rest hrest]

theorem splitOrKeep_fst_facts (sep : Char) (x y z : Str) (h : splitOrKeep sep x = (y, z)) :
    sep ∉ y ∧ (∀ c ∈ y, c ∈ x) ∧ (y ≠ [] → y.head? = x.head?) := by
  unfold splitOrKeep at h
  rcases hs : splitFirst sep x with _ | ⟨a, b⟩ <;> simp only [hs] at h
  · injection h with h1 h2
    subst h1
    exact ⟨splitFirst_eq_none sep x hs, fun c hc => hc, fun _ => rfl⟩
  · obtain ⟨hx, hna⟩ := splitFirst_eq_some sep x a b hs
    injection h with h1 h2
    subst h1
    refine ⟨hna, ?_, ?_⟩
    · intro c hc
      rw [hx]
      exact List.mem_append.mpr (Or.inl hc)
    · intro hy
      rw [hx]
      rcases a with _ | ⟨c, t⟩
      · exact absurd rfl hy
      · rfl

theorem splitOrKeep_of_not_mem (sep : Char) (x : Str) (h : sep ∉ x) :
    splitOrKeep sep x = (x, []) := by
  unfold splitOrKeep
  rw [splitFirst_of_not_mem sep x h]

theorem takeWhile_append_of_all (p : Char → Bool) :
    ∀ (a b : Str), a.all p = true → (b = [] ∨ ∃ c t, b = c :: t ∧ p c = false) →
      (a ++ b).takeWhile p = a ∧ (a ++ b).dropWhile p = b
  | [], b, _, hb => by
    rcases hb with rfl | ⟨c, t, rfl, hc⟩
    · exact ⟨rfl, rfl⟩
    · simp [List.takeWhile, List.dropWhile, hc]
  | x :: rest, b, ha, hb => by
    rw [List.all_cons, Bool.and_eq_true] at ha
    obtain ⟨h1, h2⟩ := takeWhile_append_of_all p rest b ha.2 hb
    simp [List.takeWhile, List.dropWhile, ha.1, h1, h2]

theorem mem_takeWhile_pred (p : Char → Bool) :
    ∀ (l : Str) (c : Char), c ∈ l.takeWhile p → p c = true
  | [], c, h => by simp [List.takeWhile] at h
  | x :: rest, c, h => by
    rw [List.takeWhile] at h
    by_cases hx : p x = true
    · rw [hx] at h
      simp only [cond_true] at h
      rcases List.mem_cons.mp h with rfl | h
      · exact hx
      · exact mem_takeWhile_pred p rest c h
    · rw [Bool.eq_false_iff.mpr hx] at h
      simp only [cond_false] at h
      cases h

theorem dropWhile_shape (p : Char → Bool) :
    ∀ (l : Str), l.dropWhile p = [] ∨ ∃ c t, l.dropWhile p = c :: t ∧ p c = false
  | [] => Or.inl rfl
  | x :: rest => by
    rw [List.dropWhile]
    by_cases hx : p x = true
    · rw [hx]
      exact dropWhile_shape p rest
    · rw [Bool.eq_false_iff.mpr hx]
      exact Or.inr ⟨x, rest, rfl, Bool.eq_false_iff.mpr hx⟩

theorem splitLastSlash_eq_none :
    ∀ (l : Str), splitLastSlash l = none → '/' ∉ l
  | [], _ => by simp
  | c :: rest, h => by
    unfold splitLastSlash at h
    rcases hr : splitLastSlash rest with _ | ⟨pre, post⟩ <;> rw [hr] at h
    · by_cases hc : c = '/'
      · rw [if_pos hc] at h
        exact Option.noConfusion h
      · rw [if_neg hc] at h
        intro hmem
        rcases List.mem_cons.mp hmem with hmem | hmem
        · exact hc hmem.symm
        · exact splitLastSlash_eq_none rest hr hmem
    · exact Option.noConfusion h

theorem splitLastSlash_eq_some :
    ∀ (l pre post : Str), splitLastSlash l = some (pre, post) →
      l = pre ++ '/' :: post ∧ '/' ∉ post
  | [], _, _, h => Option.noConfusion h
  | c :: rest, pre, post, h => by
    unfold splitLastSlash at h
    rcases hr : splitLastSlash rest with _ | ⟨p2, q2⟩ <;> simp only [hr] at h
    · by_cases hc : c = '/'
      · rw [if_pos hc] at h
        injection h with h
        injection h with h1 h2
        subst h1
        subst h2
        subst hc
        exact ⟨rfl, splitLastSlash_eq_none rest hr⟩
      · rw [if_neg hc] at h
        exact Option.noConfusion h
    · injection h with h
      injection h with h1 h2
      obtain ⟨hrest, hpost⟩ := splitLastSlash_eq_some rest p2 q2 hr
      subst h1
      subst h2
      exact ⟨by rw [hrest]; rfl, hpost⟩

theorem splitLastSlash_of_not_mem :
    ∀ (l : Str), '/' ∉ l → splitLastSlash l = none
  | [], _ => rfl
  | c :: rest, h => by
    have hc : ¬ c = '/' := fun hc => h (hc ▸ List.mem_cons_self c rest)
    have hrest : '/' ∉ rest := fun hm => h (List.mem_cons_of_mem c hm)
    simp only [splitLastSlash, splitLastSlash_of_not_mem rest hrest, if_neg hc]

theorem splitLastSlash_append :
    ∀ (pre post : Str), '/' ∉ post → splitLastSlash (pre ++ '/' :: post) = some (pre, post)
  | [], post, h => by
    simp only [List.nil_append, splitLastSlash, splitLastSlash_of_not_mem post h, if_pos]
  | c :: rest, post, h => by
    have ih := splitLastSlash_append rest post h
    show splitLastSlash (c :: (rest ++ '/' :: post)) = some (c :: rest, post)
    unfold splitLastSlash
    rw [ih]

theorem noParamsIn_of_not_mem (l : Str) (h : ';' ∉ l) : noParamsIn l = true := by
  unfold noParamsIn
  rcases hs : splitLastSlash l with _ | ⟨pre, post⟩
  · exact decide_eq_true h
  · obtain ⟨hl, -⟩ := splitLastSlash_eq_some l pre post hs
    refine decide_eq_true (fun hm => h ?_)
    rw [hl]
    exact List.mem_append.mpr (Or.inr (List.mem_cons_of_mem _ hm))

theorem splitparams_self (path : Str) (h : noParamsIn path = true) :
    splitparams path = (path, []) := by
  unfold splitparams
  unfold noParamsIn at h
  rcases hs : splitLastSlash path with _ | ⟨pre, post⟩ <;> simp only [hs] at h ⊢
  · rw [splitFirst_of_not_mem ';' path (of_decide_eq_true h)]
  · rw [splitFirst_of_not_mem ';' post (of_decide_eq_true h)]

theorem splitparams_rejoin (path params : Str) (hnp : noParamsIn path = true)
    (hsl : '/' ∉ params) : splitparams (path ++ ';' :: params) = (path, params) := by
  unfold noParamsIn at hnp
  rcases hs : splitLastSlash path with _ | ⟨pre, post⟩ <;> simp only [hs] at hnp
  · have hnop : '/' ∉ path := splitLastSlash_eq_none path hs
    have hcomb : '/' ∉ path ++ ';' :: params := by
      intro hm
      rcases List.mem_append.mp hm with hm | hm
      · exact hnop hm
      · rcases List.mem_cons.mp hm with hm | hm
        · exact absurd hm.symm (by decide)
        · exact hsl hm
    simp only [splitparams, splitLastSlash_of_not_mem _ hcomb,
      splitFirst_append ';' path params (of_decide_eq_true hnp)]
  · obtain ⟨hpath, hpost⟩ := splitLastSlash_eq_some path pre post hs
    have hshape : path ++ ';' :: params = pre ++ '/' :: (post ++ ';' :: params) := by
      rw [hpath]
      simp
    have hnos : '/' ∉ post ++ ';' :: params := by
      intro hm
      rcases List.mem_append.mp hm with hm | hm
      · exact hpost hm
      · rcases List.mem_cons.mp hm with hm | hm
        · exact absurd hm.symm (by decide)
        · exact hsl hm
    simp only [splitparams, hshape, splitLastSlash_append pre _ hnos,
      splitFirst_append ';' post params (of_decide_eq_true hnp)]
    rw [hpath]

theorem splitparams_spec (l a b : Str) (h : splitparams l = (a, b)) :
    (a = l ∧ b = [] ∧ noParamsIn l = true) ∨
      (l = a ++ ';' :: b ∧ noParamsIn a = true ∧ '/' ∉ b) := by
  unfold splitparams at h
  rcases hs : splitLastSlash l with _ | ⟨pre, post⟩ <;> simp only [hs] at h
  · rcases hf : splitFirst ';' l with _ | ⟨x, y⟩ <;> simp only [hf] at h
    · injection h with h1 h2
      exact Or.inl ⟨h1.symm, h2.symm, noParamsIn_of_not_mem l (splitFirst_eq_none ';' l hf)⟩
    · injection h with h1 h2
      obtain ⟨hl, hnx⟩ := splitFirst_eq_some ';' l x y hf
      have hnol : '/' ∉ l := splitLastSlash_eq_none l hs
      refine Or.inr ⟨by rw [← h1, ← h2]; exact hl, ?_, ?_⟩
      · have hna2 : '/' ∉ a := by
          rw [← h1]
          intro hm
          exact hnol (hl ▸ List.mem_append.mpr (Or.inl hm))
        unfold noParamsIn
        rw [splitLastSlash_of_not_mem a hna2]
        rw [← h1]
        exact decide_eq_true hnx
      · rw [← h2]
        intro hm
        exact hnol (hl ▸ List.mem_append.mpr (Or.inr (List.mem_cons_of_mem _ hm)))
  · obtain ⟨hl, hpost⟩ := splitLastSlash_eq_some l pre post hs
    rcases hf : splitFirst ';' post with _ | ⟨x, y⟩ <;> simp only [hf] at h
    · injection h with h1 h2
      refine Or.inl ⟨h1.symm, h2.symm, ?_⟩
      unfold noParamsIn
      rw [hs]
      exact decide_eq_true (splitFirst_eq_none ';' post hf)
    · injection h with h1 h2
      obtain ⟨hpostx, hnx⟩ := splitFirst_eq_some ';' post x y hf
      have hnox : '/' ∉ x := fun hm => hpost (hpostx ▸ List.mem_append.mpr (Or.inl hm))
      refine Or.inr ⟨?_, ?_, ?_⟩
      · rw [← h1, ← h2, hl, hpostx]
        simp
      · rw [← h1]
        unfold noParamsIn
        rw [splitLastSlash_append pre x hnox]
        exact decide_eq_true hnx
      · rw [← h2]
        intro hm
        exact hpost (hpostx ▸ List.mem_append.mpr (Or.inr (List.mem_cons_of_mem _ hm)))

/-! ## Lemmas about lowercasing scheme characters -/

theorem toLower_toNat_of_upper (c : Char) (h1 : 65 ≤ c.toNat) (h2 : c.toNat ≤ 90) :
    (Char.toLower c).toNat = c.toNat + 32 := by
  have hv : (c.toNat + 32).isValidChar := Or.inl (by omega)
  simp only [Char.toLower]
  rw [if_pos ⟨h1, h2⟩]
  unfold Char.ofNat
  rw [dif_pos hv]
  rfl

theorem toLower_eq_of_not_upper (c : Char) (h : ¬ (65 ≤ c.toNat ∧ c.toNat ≤ 90)) :
    Char.toLower c = c := by
  simp only [Char.toLower]
  rw [if_neg h]

theorem isAsciiAlpha_toLower (c : Char) (h : isAsciiAlpha c = true) :
    isAsciiAlpha (Char.toLower c) = true := by
  unfold isAsciiAlpha at h ⊢
  by_cases hu : 65 ≤ c.toNat ∧ c.toNat ≤ 90
  · rw [toLower_toNat_of_upper c hu.1 hu.2]
    simp only [Bool.or_eq_true, Bool.and_eq_true, decide_eq_true_eq]
    omega
  · rw [toLower_eq_of_not_upper c hu]
    exact h

theorem isSchemeChar_toLower (c : Char) (h : isSchemeChar c = true) :
    isSchemeChar (Char.toLower c) = true := by
  unfold isSchemeChar at h ⊢
  by_cases hu : 65 ≤ c.toNat ∧ c.toNat ≤ 90
  · have ht := toLower_toNat_of_upper c hu.1 hu.2
    simp only [Bool.or_eq_true]
    left
    left
    unfold isAsciiAlpha
    rw [ht]
    simp only [Bool.or_eq_true, Bool.and_eq_true, decide_eq_true_eq]
    omega
  · rw [toLower_eq_of_not_upper c hu]
    exact h

theorem toLower_idem (c : Char) : Char.toLower (Char.toLower c) = Char.toLower c := by
  by_cases hu : 65 ≤ c.toNat ∧ c.toNat ≤ 90
  · have ht := toLower_toNat_of_upper c hu.1 hu.2
    apply toLower_eq_of_not_upper
    rw [ht]
    omega
  · rw [toLower_eq_of_not_upper c hu, toLower_eq_of_not_upper c hu]

theorem map_toLower_idem (l : Str) : (l.map Char.toLower).map Char.toLower = l.map Char.toLower := by
  induction l with
  | nil => rfl
  | cons c rest ih => simp [toLower_idem, ih]

theorem all_isSchemeChar_map_toLower (l : Str) (h : l.all isSchemeChar = true) :
    (l.map Char.toLower).all isSchemeChar = true := by
  induction l with
  | nil => rfl
  | cons c rest ih =>
    rw [List.all_cons, Bool.and_eq_true] at h
    simp only [List.map_cons, List.all_cons, Bool.and_eq_true]
    exact ⟨isSchemeChar_toLower c h.1, ih h.2⟩

theorem schemeChar_not_colon (c : Char) (h : isSchemeChar c = true) : c ≠ ':' := by
  intro hc
  subst hc
  exact absurd h (by decide)

theorem all_schemeChar_colon_not_mem (l : Str) (h : l.all isSchemeChar = true) : ':' ∉ l := by
  intro hm
  rw [List.all_eq_true] at h
  exact schemeChar_not_colon ':' (h ':' hm) rfl

/-! ## Shape and exactness of the scheme and netloc splits -/

theorem splitScheme_shape (dflt u s r : Str) (h : splitScheme dflt u = (s, r)) :
    (s = dflt ∧ r = u) ∨
      (isAsciiAlpha (s.headD ' ') = true ∧ s.all isSchemeChar = true ∧
        s.map Char.toLower = s) := by
  unfold splitScheme at h
  rcases hf : splitFirst ':' u with _ | ⟨pre, post⟩ <;> simp only [hf] at h
  · injection h with h1 h2
    exact Or.inl ⟨h1.symm, h2.symm⟩
  · by_cases hc : (isAsciiAlpha (pre.headD ' ') && pre.all isSchemeChar) = true
    · rw [if_pos hc] at h
      injection h with h1 h2
      rw [Bool.and_eq_true] at hc
      refine Or.inr ⟨?_, ?_, ?_⟩
      · rw [← h1]
        rcases pre with _ | ⟨c, t⟩
        · exact absurd hc.1 (by decide)
        · exact isAsciiAlpha_toLower c hc.1
      · rw [← h1]
        exact all_isSchemeChar_map_toLower pre hc.2
      · rw [← h1]
        exact map_toLower_idem pre
    · rw [if_neg hc] at h
      injection h with h1 h2
      exact Or.inl ⟨h1.symm, h2.symm⟩

theorem splitScheme_exact (s r : Str) (h2 : isAsciiAlpha (s.headD ' ') = true)
    (h3 : s.all isSchemeChar = true) (h4 : s.map Char.toLower = s) :
    splitScheme [] (s ++ ':' :: r) = (s, r) := by
  unfold splitScheme
  simp only [splitFirst_append ':' s r (all_schemeChar_colon_not_mem s h3)]
  rw [if_pos (show (isAsciiAlpha (s.headD ' ') && s.all isSchemeChar) = true by
    rw [Bool.and_eq_true]; exact ⟨h2, h3⟩), h4]

theorem splitNetloc_shape (x nl r : Str) (h : splitNetloc x = (nl, r)) :
    (∀ c ∈ nl, isNetlocStop c = false) ∧
      (nl ≠ [] → (r = [] ∨ ∃ c t, r = c :: t ∧ isNetlocStop c = true)) := by
  unfold splitNetloc at h
  by_cases hx : x.take 2 = ['/', '/']
  · rw [if_pos hx] at h
    injection h with h1 h2
    constructor
    · intro c hc
      rw [← h1] at hc
      simpa using mem_takeWhile_pred (fun c => !isNetlocStop c) (x.drop 2) c hc
    · intro _
      rw [← h2]
      rcases dropWhile_shape (fun c => !isNetlocStop c) (x.drop 2) with hd | ⟨c, t, hd, hc⟩
      · exact Or.inl hd
      · exact Or.inr ⟨c, t, hd, by simpa using hc⟩
  · rw [if_neg hx] at h
    injection h with h1 h2
    rw [← h1]
    exact ⟨fun c hc => absurd hc (List.not_mem_nil c), fun hne => absurd rfl hne⟩

theorem splitNetloc_exact (nl r : Str) (h1 : ∀ c ∈ nl, isNetlocStop c = false)
    (h2 : r = [] ∨ ∃ c t, r = c :: t ∧ isNetlocStop c = true) :
    splitNetloc ('/' :: '/' :: (nl ++ r)) = (nl, r) := by
  unfold splitNetloc
  rw [if_pos (show List.take 2 ('/' :: '/' :: (nl ++ r)) = ['/', '/'] from rfl)]
  have hall : nl.all (fun c => !isNetlocStop c) = true := by
    rw [List.all_eq_true]
    intro c hc
    simp [h1 c hc]
  have hr : r = [] ∨ ∃ c t, r = c :: t ∧ (fun c => !isNetlocStop c) c = false := by
    rcases h2 with h2 | ⟨c, t, hrt, hc⟩
    · exact Or.inl h2
    · exact Or.inr ⟨c, t, hrt, by simp [hc]⟩
  obtain ⟨ht, hd⟩ := takeWhile_append_of_all (fun c => !isNetlocStop c) nl r hall hr
  show ((nl ++ r).takeWhile fun c => !isNetlocStop c, (nl ++ r).dropWhile fun c => !isNetlocStop c) = (nl, r)
  rw [ht, hd]

theorem isNetlocStop_iff (c : Char) : isNetlocStop c = true ↔ c = '/' ∨ c = '?' ∨ c = '#' := by
  unfold isNetlocStop
  simp only [Bool.or_eq_true, decide_eq_true_eq, or_assoc]

/-! ## Shape of `urlparse` output -/

theorem urlparse_shape (u : Str) (p : ParseResult) (h : urlparse [] u = p) :
    (p.scheme = [] ∨
      (isAsciiAlpha (p.scheme.headD ' ') = true ∧ p.scheme.all isSchemeChar = true ∧
        p.scheme.map Char.toLower = p.scheme)) ∧
    (∀ c ∈ p.netloc, isNetlocStop c = false) ∧
    (p.netloc ≠ [] → (p.path = [] ∨ p.path.head? = some '/')) ∧
    '#' ∉ p.path ∧ '?' ∉ p.path ∧
    '/' ∉ p.params ∧ '#' ∉ p.params ∧ '?' ∉ p.params ∧
    (p.scheme ∈ usesParams → noParamsIn p.path = true) ∧
    (p.scheme ∉ usesParams → p.params = []) ∧
    (p.netloc ≠ [] → p.params ≠ [] → p.path ≠ []) := by
  unfold urlparse at h
  rcases hsr : splitScheme [] u with ⟨scheme, r1⟩
  rcases hnr : splitNetloc r1 with ⟨netloc, r2⟩
  rcases hfr : splitOrKeep '#' r2 with ⟨f1, frag⟩
  rcases hqr : splitOrKeep '?' f1 with ⟨q1, query⟩
  simp only [hsr, hnr, hfr, hqr] at h
  have hschemeFacts :
      scheme = [] ∨
        (isAsciiAlpha (scheme.headD ' ') = true ∧ scheme.all isSchemeChar = true ∧
          scheme.map Char.toLower = scheme) := by
    rcases splitScheme_shape [] u scheme r1 hsr with ⟨hs, -⟩ | hs
    · exact Or.inl hs
    · exact Or.inr hs
  obtain ⟨hnlClean, hr2shape⟩ := splitNetloc_shape r1 netloc r2 hnr
  obtain ⟨hf1hash, hf1sub, hf1head⟩ := splitOrKeep_fst_facts '#' r2 f1 frag hfr
  obtain ⟨hq1quest, hq1sub, hq1head⟩ := splitOrKeep_fst_facts '?' f1 q1 query hqr
  have hq1hash : '#' ∉ q1 := fun hm => hf1hash (hq1sub '#' hm)
  have hq1headSlash : netloc ≠ [] → q1 = [] ∨ q1.head? = some '/' := by
    intro hnl
    rcases hq1 : q1 with _ | ⟨c1, t1⟩
    · exact Or.inl rfl
    · subst hq1
      right
      have hhq := hq1head (List.cons_ne_nil c1 t1)
      have hf1ne : f1 ≠ [] := by
        intro hf1nil
        rw [hf1nil] at hhq
        exact Option.noConfusion hhq
      have hhf := hf1head hf1ne
      rcases hr2shape hnl with hr2 | ⟨c, t, hr2, hstop⟩
      · rw [hr2] at hhf
        rw [hhf] at hhq
        exact Option.noConfusion hhq
      · rw [hr2] at hhf
        rw [hhf] at hhq
        have hc1c : c1 = c := by simpa using hhq
        subst hc1c
        have hc1q : c1 ∈ c1 :: t1 := List.mem_cons_self c1 t1
        rcases (isNetlocStop_iff c1).mp hstop with hcc | hcc | hcc
        · simp [hcc]
        · exact absurd (hcc ▸ hc1q) hq1quest
        · exact absurd (hcc ▸ hc1q) hq1hash
  by_cases hcond : scheme ∈ usesParams ∧ ';' ∈ q1
  · rw [if_pos hcond] at h
    rcases hsp : splitparams q1 with ⟨path, par⟩
    simp only [hsp] at h
    obtain ⟨ps, pn, pp, ppar, pq, pf⟩ := p
    injection h with e1 e2 e3 e4 e5 e6
    subst e1
    subst e2
    subst e3
    subst e4
    subst e5
    subst e6
    rcases splitparams_spec q1 path par hsp with ⟨hp1, hp2, hp3⟩ | ⟨hq1eq, hnpar, hparSlash⟩
    · subst hp1
      subst hp2
      refine ⟨hschemeFacts, hnlClean, ?_, hq1hash, hq1quest, ?_, ?_, ?_, fun _ => hp3,
        fun _ => rfl, ?_⟩
      · intro hnl
        exact hq1headSlash hnl
      · simp
      · simp
      · simp
      · intro _ hpar
        exact absurd rfl hpar
    · have hpathsub : ∀ c ∈ path, c ∈ q1 := by
        intro c hc
        rw [hq1eq]
        exact List.mem_append.mpr (Or.inl hc)
      have hparsub : ∀ c ∈ par, c ∈ q1 := by
        intro c hc
        rw [hq1eq]
        exact List.mem_append.mpr (Or.inr (List.mem_cons_of_mem _ hc))
      refine ⟨hschemeFacts, hnlClean, ?_, fun hm => hq1hash (hpathsub '#' hm),
        fun hm => hq1quest (hpathsub '?' hm), hparSlash,
        fun hm => hq1hash (hparsub '#' hm), fun hm => hq1quest (hparsub '?' hm),
        fun _ => hnpar, fun hnp => absurd hcond.1 hnp, ?_⟩
      · intro hnl
        rcases hpath : path with _ | ⟨c1, t1⟩
        · exact Or.inl rfl
        · subst hpath
          right
          rcases hq1headSlash hnl with hq1nil | hq1hd
          · rw [hq1nil] at hq1eq
            simp at hq1eq
          · rw [hq1eq] at hq1hd
            have hc1 : c1 = '/' := by simpa using hq1hd
            simp [hc1]
      · intro hnl hparne hpathnil
        subst hpathnil
        rcases hq1headSlash hnl with hq1nil | hq1hd
        · rw [hq1nil] at hq1eq
          simp at hq1eq
        · rw [hq1eq] at hq1hd
          simp at hq1hd
  · rw [if_neg hcond] at h
    obtain ⟨ps, pn, pp, ppar, pq, pf⟩ := p
    injection h with e1 e2 e3 e4 e5 e6
    subst e1
    subst e2
    subst e3
    subst e4
    subst e5
    subst e6
    refine ⟨hschemeFacts, hnlClean, ?_, hq1hash, hq1quest, ?_, ?_, ?_, ?_, fun _ => rfl, ?_⟩
    · intro hnl
      exact hq1headSlash hnl
    · simp
    · simp
    · simp
    · intro hin
      have hnmem : ';' ∉ q1 := fun hm => hcond ⟨hin, hm⟩
      exact noParamsIn_of_not_mem q1 hnmem
    · intro _ hpar
      exact absurd rfl hpar

/-! ## The parse of an unparsed well-formed record -/

theorem urlunsplit_shape (scheme netloc url0 : Str) (hs : scheme ≠ []) (hn : netloc ≠ [])
    (hu : url0 = [] ∨ url0.head? = some '/') :
    urlunsplit scheme netloc url0 [] [] = scheme ++ ':' :: '/' :: '/' :: (netloc ++ url0) := by
  unfold urlunsplit
  rw [if_pos (Or.inl hn)]
  have hinner : ¬ (url0 ≠ [] ∧ url0.head? ≠ some '/') := by
    rcases hu with hu | hu
    · intro hcon
      exact hcon.1 hu
    · intro hcon
      exact hcon.2 hu
  rw [if_neg hinner]
  dsimp only
  rw [if_pos hs, if_neg (not_not_intro rfl), if_neg (not_not_intro rfl)]
  rfl

theorem parse_unparse (p : ParseResult) (h : NWF p) : urlparse [] (urlunparse p) = p := by
  obtain ⟨scheme, netloc, path, params, query, fragment⟩ := p
  obtain ⟨h1, h2, h3, h4, h5, h6, h7, h8, h9, h10, h11, h12, h13, h14, h15, h16, h17⟩ := h
  simp only at h1 h2 h3 h4 h5 h6 h7 h8 h9 h10 h11 h12 h13 h14 h15 h16 h17
  subst h16
  subst h17
  have hpathshape : path = [] ∨ ∃ c t, path = c :: t ∧ isNetlocStop c = true := by
    rcases h7 with h7 | h7
    · exact Or.inl h7
    · rcases path with _ | ⟨c, t⟩
      · exact Or.inl rfl
      · injection h7 with h7
        exact Or.inr ⟨c, t, rfl, by rw [h7]; decide⟩
  by_cases hpar : params = []
  · subst hpar
    have hunp : urlunparse ⟨scheme, netloc, path, [], [], []⟩ =
        scheme ++ ':' :: '/' :: '/' :: (netloc ++ path) := by
      unfold urlunparse
      rw [if_neg (not_not_intro rfl)]
      exact urlunsplit_shape scheme netloc path h1 h5 h7
    rw [hunp]
    unfold urlparse
    simp only [splitScheme_exact scheme _ h2 h3 h4, splitNetloc_exact netloc path h6 hpathshape,
      splitOrKeep_of_not_mem '#' path h8, splitOrKeep_of_not_mem '?' path h9]
    by_cases hin : scheme ∈ usesParams ∧ ';' ∈ path
    · rw [if_pos hin, splitparams_self path (h13 hin.1)]
    · rw [if_neg hin]
  · have hpne : path ≠ [] := h15 hpar
    have hphead : path.head? = some '/' := by
      rcases h7 with h7 | h7
      · exact absurd h7 hpne
      · exact h7
    have hin : scheme ∈ usesParams := by
      by_contra hno
      exact hpar (h14 hno)
    have hu0head : (path ++ ';' :: params).head? = some '/' := by
      rcases path with _ | ⟨c, t⟩
      · exact absurd rfl hpne
      · exact hphead
    have hu0hash : '#' ∉ path ++ ';' :: params := by
      intro hm
      rcases List.mem_append.mp hm with hm | hm
      · exact h8 hm
      · rcases List.mem_cons.mp hm with hm | hm
        · exact absurd hm.symm (by decide)
        · exact h11 hm
    have hu0quest : '?' ∉ path ++ ';' :: params := by
      intro hm
      rcases List.mem_append.mp hm with hm | hm
      · exact h9 hm
      · rcases List.mem_cons.mp hm with hm | hm
        · exact absurd hm.symm (by decide)
        · exact h12 hm
    have hu0shape : path ++ ';' :: params = [] ∨
        ∃ c t, path ++ ';' :: params = c :: t ∧ isNetlocStop c = true := by
      rcases hp : path with _ | ⟨c, t⟩
      · exact absurd hp hpne
      · subst hp
        injection hphead with hc
        subst hc
        exact Or.inr ⟨'/', t ++ ';' :: params, rfl, by decide⟩
    have hunp : urlunparse ⟨scheme, netloc, path, params, [], []⟩ =
        scheme ++ ':' :: '/' :: '/' :: (netloc ++ (path ++ ';' :: params)) := by
      unfold urlunparse
      rw [if_pos hpar]
      exact urlunsplit_shape scheme netloc (path ++ ';' :: params) h1 h5 (Or.inr hu0head)
    rw [hunp]
    unfold urlparse
    simp only [splitScheme_exact scheme _ h2 h3 h4,
      splitNetloc_exact netloc (path ++ ';' :: params) h6 hu0shape,
      splitOrKeep_of_not_mem '#' _ hu0hash, splitOrKeep_of_not_mem '?' _ hu0quest]
    have hsemi : ';' ∈ path ++ ';' :: params :=
      List.mem_append.mpr (Or.inr (List.mem_cons_self ';' params))
    rw [if_pos ⟨hin, hsemi⟩, splitparams_rejoin path params (h13 hin) h10]

/-! ## Well-formedness of normalized URLs -/

theorem normalize_nwf (u v : Str) (h : normalize_url u = some v) :
    ∃ p, NWF p ∧ v = urlunparse p ∧ p.path = (urlparse [] u).path := by
  obtain ⟨hS, hNl, hPh, hPhash, hPq, hParS, hParH, hParQ, hPc, hPn, hPp⟩ :=
    urlparse_shape u (urlparse [] u) rfl
  unfold normalize_url at h
  dsimp only at h
  by_cases hsch : (urlparse [] u).scheme = []
  · rw [if_pos hsch] at h
    dsimp only at h
    by_cases hnl : (urlparse [] u).netloc = []
    · rw [if_pos hnl] at h
      exact Option.noConfusion h
    · rw [if_neg hnl] at h
      injection h with h
      have hnl2 : (urlparse [] u).netloc ≠ [] := hnl
      have hw : NWF ⟨"https".data, (urlparse [] u).netloc, (urlparse [] u).path,
          (urlparse [] u).params, [], []⟩ :=
        { scheme_ne := by show "https".data ≠ []; decide
          scheme_head := by show isAsciiAlpha (List.headD "https".data ' ') = true; decide
          scheme_chars := by show List.all "https".data isSchemeChar = true; decide
          scheme_low := by show List.map Char.toLower "https".data = "https".data; decide
          netloc_ne := hnl2
          netloc_clean := hNl
          path_head := hPh hnl2
          path_hash := hPhash
          path_quest := hPq
          params_slash := hParS
          params_hash := hParH
          params_quest := hParQ
          params_cond := fun _ => hPc (by rw [hsch]; decide)
          params_nil := fun hno => absurd (by decide : "https".data ∈ usesParams) hno
          params_path := hPp hnl2
          query_nil := rfl
          frag_nil := rfl }
      exact ⟨_, hw, h.symm, rfl⟩
  · rw [if_neg hsch] at h
    by_cases hnl : (urlparse [] u).netloc = []
    · rw [if_pos hnl] at h
      exact Option.noConfusion h
    · rw [if_neg hnl] at h
      injection h with h
      have hnl2 : (urlparse [] u).netloc ≠ [] := hnl
      have hgood := hS.resolve_left hsch
      have hw : NWF ⟨(urlparse [] u).scheme, (urlparse [] u).netloc, (urlparse [] u).path,
          (urlparse [] u).params, [], []⟩ :=
        { scheme_ne := hsch
          scheme_head := hgood.1
          scheme_chars := hgood.2.1
          scheme_low := hgood.2.2
          netloc_ne := hnl2
          netloc_clean := hNl
          path_head := hPh hnl2
          path_hash := hPhash
          path_quest := hPq
          params_slash := hParS
          params_hash := hParH
          params_quest := hParQ
          params_cond := hPc
          params_nil := hPn
          params_path := hPp hnl2
          query_nil := rfl
          frag_nil := rfl }
      exact ⟨_, hw, h.symm, rfl⟩

theorem normalize_of_nwf (p : ParseResult) (hw : NWF p) :
    normalize_url (urlunparse p) = some (urlunparse p) := by
  obtain ⟨a, b, c, d, e, f⟩ := p
  have hq := hw.query_nil
  have hf := hw.frag_nil
  simp only at hq hf
  subst hq
  subst hf
  unfold normalize_url
  dsimp only
  rw [parse_unparse _ hw]
  rw [if_neg hw.scheme_ne]
  rw [if_neg hw.netloc_ne]

/-! ## Claim C5: normalization is idempotent -/

/-- C5: on every URL string on which it succeeds, `normalize_url` is
idempotent — normalizing its own output returns the output unchanged. -/
theorem normalize_url_idempotent (u v : Str) (h : normalize_url u = some v) :
    normalize_url v = some v := by
  obtain ⟨p, hw, hv, -⟩ := normalize_nwf u v h
  rw [hv]
  exact normalize_of_nwf p hw

/-- Witness for C5 on a URL with default scheme, uppercase scheme handling,
query and fragment. -/
theorem normalize_url_idempotent_witness :
    normalize_url "HTTPS://Host/A;p?q=1#frag".data = some "https://Host/A;p".data ∧
      normalize_url "https://Host/A;p".data = some "https://Host/A;p".data :=
  ⟨by decide,
    normalize_url_idempotent "HTTPS://Host/A;p?q=1#frag".data "https://Host/A;p".data (by decide)⟩

/-! ## Claim C6: trailing slashes (corrected: they are preserved, not collapsed) -/

/-- Counterexample to C6 as stated: two link targets differing only by a
trailing slash normalize to two different strings, and `discover_links` keeps
both as separate candidates rather than deduplicating them. -/
theorem trailing_slash_not_deduplicated :
    normalize_url "https://h/a/x".data = some "https://h/a/x".data ∧
      normalize_url "https://h/a/x/".data = some "https://h/a/x/".data ∧
      ("https://h/a/x".data : Str) ≠ "https://h/a/x/".data ∧
      discover_links "https://h/a".data slashMarkup =
        some ["https://h/a".data, "https://h/a/x".data, "https://h/a/x/".data] := by
  refine ⟨by decide, by decide, by decide, by decide⟩

/-- C6 amended: `normalize_url` preserves the parsed path verbatim — trailing
slashes included — so two link targets differing only by a trailing slash
normalize to URLs that still differ in the trailing slash and stay distinct
candidates in `discover_links`. -/
theorem normalize_url_preserves_path (u v : Str) (h : normalize_url u = some v) :
    pathOf v = pathOf u := by
  obtain ⟨p, hw, hv, hpath⟩ := normalize_nwf u v h
  show (urlparse [] v).path = (urlparse [] u).path
  rw [hv, parse_unparse p hw]
  exact hpath

/-- Witness for the amended C6 at a trailing-slash URL with a query to strip. -/
theorem normalize_url_preserves_path_witness :
    normalize_url "https://h/a/x/?page=2".data = some "https://h/a/x/".data ∧
      pathOf "https://h/a/x/?page=2".data = "/a/x/".data ∧
      pathOf "https://h/a/x/".data = pathOf "https://h/a/x/?page=2".data :=
  ⟨by decide, by decide,
    normalize_url_preserves_path "https://h/a/x/?page=2".data "https://h/a/x/".data (by decide)⟩

end Scraper
